import Mathlib

set_option maxHeartbeats 1000000

/-!
Verification of the name-matching / entity-resolution core of the `unisurf`
ETL repository, as a shallow embedding in Lean 4.

Python strings are modelled as `List Char`.  Character-class predicates
(`str.isupper`, `str.isalpha`, whitespace, upper/lower-casing) are modelled on
the ASCII fragment exercised by the pipeline; Unicode NFD decomposition is
modelled by a finite canonical-decomposition table with identity as default
(see `nfdTable`).  Floating point scores are modelled as exact rationals; all
score arithmetic in the source is small-magnitude and exact, so ℚ is faithful.

The third-party `rapidfuzz` similarity primitives used by the repository
(`JaroWinkler.similarity`, `fuzz.token_set_ratio`) are not repository code;
they are embedded below by their standard published algorithms
(`jaroWinklerSim`, `fuzzTokenSet`).
-/

/-- Python strings, modelled as lists of characters. -/
abbrev Str := List Char

/-- Convenience injection of Lean string literals into the model. -/
def str (s : String) : Str := s.toList

/-- Whitespace, modelling Python's `\s` / `str.split()` / `str.strip()`
(ASCII whitespace fragment: space, tab, newline, CR, FF, VT). -/
def pySpace (c : Char) : Bool :=
  c == ' ' || c == '\t' || c == '\n' || c.toNat == 13 || c.toNat == 12 || c.toNat == 11

/-- Python `str.strip()`. -/
def pyStrip (s : Str) : Str :=
  ((s.dropWhile pySpace).reverse.dropWhile pySpace).reverse

/-- Python `str.upper()` (ASCII fragment). -/
def pyUpper (s : Str) : Str := s.map Char.toUpper

/-- Python `str.lower()` (ASCII fragment). -/
def pyLower (s : Str) : Str := s.map Char.toLower

/-- Python `str.isalpha()` (ASCII fragment): nonempty and all alphabetic. -/
def pyIsAlpha (s : Str) : Bool := !s.isEmpty && s.all Char.isAlpha

/-- Python `str.isupper()` (ASCII fragment): at least one cased character and
every cased character uppercase.  Cased characters are modelled as ASCII
letters. -/
def pyIsUpper (s : Str) : Bool :=
  s.any Char.isAlpha && s.all (fun c => !c.isAlpha || c.isUpper)

/-- One step of `pySplit`: given a non-whitespace character `c`, the rest of
the input and the words of the rest, either open a new word or extend the
first word of the rest (when the rest begins with a non-whitespace
character, its first word is adjacent to `c`). -/
def pySplitStep (c : Char) (rest : Str) (ws : List Str) : List Str :=
  match rest, ws with
  | d :: _, w :: ws2 => if pySpace d then [c] :: w :: ws2 else (c :: w) :: ws2
  | _, _ => [[c]]

/-- Python `str.split()` with no separator: maximal runs of non-whitespace
characters, leading/trailing/repeated whitespace ignored. -/
def pySplit : Str → List Str
  | [] => []
  | c :: rest =>
    if pySpace c then pySplit rest
    else pySplitStep c rest (pySplit rest)

/-- Python `" ".join(ws)`. -/
def joinSpace : List Str → Str
  | [] => []
  | [w] => w
  | w :: ws => w ++ ' ' :: joinSpace ws

/-- Longest-common-subsequence length, fuel-based so that it reduces in the
kernel.  `lcsLen` supplies sufficient fuel. -/
def lcsAux : Nat → Str → Str → Nat
  | 0, _, _ => 0
  | _, [], _ => 0
  | _, _, [] => 0
  | fuel + 1, a :: as, b :: bs =>
    if a = b then lcsAux fuel as bs + 1
    else max (lcsAux fuel (a :: as) bs) (lcsAux fuel as (b :: bs))

/-- Longest-common-subsequence length of two strings. -/
def lcsLen (a b : Str) : Nat := lcsAux (a.length + b.length) a b

/-- Normalized indel similarity scaled to 0–100, as in `rapidfuzz`:
`100 * (1 - indel_distance/(len a + len b))`, where the indel distance is
`len a + len b - 2 * LCS(a,b)`.  Two empty strings score 100. -/
def indelSim (a b : Str) : ℚ :=
  if a.length + b.length = 0 then 100
  else 200 * (lcsLen a b : ℚ) / ((a.length : ℚ) + (b.length : ℚ))

/-- Lexicographic comparison by code point, modelling Python string `<`. -/
def strLtB : Str → Str → Bool
  | [], [] => false
  | [], _ :: _ => true
  | _ :: _, [] => false
  | a :: as, b :: bs => if a = b then strLtB as bs else decide (a.toNat < b.toNat)

/-- Insertion into a sorted list of strings. -/
def insertSorted (w : Str) : List Str → List Str
  | [] => [w]
  | x :: xs => if strLtB w x then w :: x :: xs else x :: insertSorted w xs

/-- Insertion sort by `strLtB`, modelling Python `sorted`. -/
def sortStrs : List Str → List Str
  | [] => []
  | w :: ws => insertSorted w (sortStrs ws)

/-- Duplicate removal, modelling conversion to a Python `set`
(order is irrelevant because the result is always sorted afterwards). -/
def dedupStrs (ws : List Str) : List Str :=
  ws.foldl (fun acc w => if w ∈ acc then acc else acc ++ [w]) []

/-- `rapidfuzz`'s `fuzz.token_set_ratio`: split both strings into sorted
de-duplicated token sets, build the sorted intersection and the two sorted
differences, join with single spaces, and return the best of the three
pairwise normalized indel similarities between (intersection, intersection ++
difference₁, intersection ++ difference₂).  (The library's early-exit `100`
when the intersection is nonempty and one difference is empty coincides with
the `indelSim` of two equal strings, so it needs no separate branch.) -/
def fuzzTokenSet (s1 s2 : Str) : ℚ :=
  let ta := sortStrs (dedupStrs (pySplit s1))
  let tb := sortStrs (dedupStrs (pySplit s2))
  let sect := ta.filter (fun w => decide (w ∈ tb))
  let diffAB := ta.filter (fun w => decide (w ∉ tb))
  let diffBA := tb.filter (fun w => decide (w ∉ ta))
  let sectStr := joinSpace sect
  let c1 := joinSpace (sect ++ diffAB)
  let c2 := joinSpace (sect ++ diffBA)
  max (max (indelSim sectStr c1) (indelSim sectStr c2)) (indelSim c1 c2)

/-- First index `j` of `t` with `lo ≤ j < hi`, `t[j] = c` and `j` not yet
used: the match-search step of the Jaro similarity. -/
def jaroFind (t : Str) (used : List Nat) (c : Char) (lo hi : Nat) : Option Nat :=
  ((List.range t.length).filter
    (fun j => decide (lo ≤ j ∧ j < hi ∧ t.get? j = some c ∧ j ∉ used))).head?

/-- Greedy matching pass of the Jaro similarity: for each character of the
pattern (with its index), claim the first unused character of `t` equal to it
inside the window.  Returns the matched pattern characters in order and the
set of claimed indices of `t`. -/
def jaroMatchAux (t : Str) (bound : Nat) : Str → Nat → List Nat → Str × List Nat
  | [], _, used => ([], used)
  | c :: rest, i, used =>
    match jaroFind t used c (i - bound) (min t.length (i + bound + 1)) with
    | some j =>
      let pr := jaroMatchAux t bound rest (i + 1) (used ++ [j])
      (c :: pr.1, pr.2)
    | none => jaroMatchAux t bound rest (i + 1) used

/-- Jaro similarity in [0,1], standard algorithm as in `rapidfuzz`:
window `max(len)/2 - 1` (clamped at 0), greedy matching, transpositions
counted as half the number of positions where the two matched sequences
disagree. -/
def jaroSim (p t : Str) : ℚ :=
  if p = [] ∧ t = [] then 1
  else if p = [] ∨ t = [] then 0
  else
    let bound := max p.length t.length / 2 - 1
    let mt := jaroMatchAux t bound p 0 []
    let m1 := mt.1
    let used := mt.2
    let m := m1.length
    if m = 0 then 0
    else
      let m2 := ((List.range t.length).filter (fun j => decide (j ∈ used))).filterMap t.get?
      let k := (m1.zip m2).countP (fun pr => decide (pr.1 ≠ pr.2))
      ((m : ℚ) / (p.length : ℚ) + (m : ℚ) / (t.length : ℚ)
        + ((m : ℚ) - (k : ℚ) / 2) / (m : ℚ)) / 3

/-- Length of the common prefix of two strings. -/
def commonPrefixLen : Str → Str → Nat
  | a :: as, b :: bs => if a = b then commonPrefixLen as bs + 1 else 0
  | _, _ => 0

/-- Jaro-Winkler similarity in [0,1] as in `rapidfuzz.distance.JaroWinkler`:
prefix boost (weight 0.1, prefix capped at 4) applied when the Jaro
similarity exceeds 0.7. -/
def jaroWinklerSim (p t : Str) : ℚ :=
  let sim := jaroSim p t
  if sim > 7 / 10 then sim + (min (commonPrefixLen p t) 4 : ℕ) * (1 / 10) * (1 - sim)
  else sim

/-! ## Shared parsing helpers (identical code in `matching_functionsV3.py` and
`matching_functionsV4.py`) -/

/-- Matcher for the body of the regex `^[A-Za-z]\.?([A-Za-z]\.?)*$`:
a sequence of groups, each one ASCII letter optionally followed by a period.
(The regex is deterministic here: after a letter, a following period must be
consumed by the optional `\.?`, since a new group cannot start with `.`.) -/
def initGroups : Str → Bool
  | [] => true
  | c :: '.' :: rest => c.isAlpha && initGroups rest
  | c :: rest => c.isAlpha && initGroups rest

/-- `is_initial` from the source: the stripped string matches the initial
pattern and has at most three non-period characters. -/
def is_initial (name : Str) : Bool :=
  let t := pyStrip name
  !t.isEmpty && initGroups t && decide ((t.filter (fun c => c ≠ '.')).length ≤ 3)

/-- `extract_initial` from the source: first letter after dropping all
non-letters; empty string stays empty.  (On a nonempty letterless string
Python would raise `IndexError`; that case is unreachable because every call
site guards with `is_initial`, and is modelled as the empty string.) -/
def extract_initial (name : Str) : Str :=
  if name = [] then []
  else
    match name.filter Char.isAlpha with
    | [] => []
    | c :: _ => [c]

/-! ## Character-level normalization machinery shared by the normalizers -/

/-- Finite model of Unicode canonical (NFD) decomposition: accented Latin
letters used by the pipeline decompose into base letter plus combining mark;
every character not listed is its own (already fully decomposed) NFD form. -/
def nfdTable : List (Char × List Char) :=
  [ ('à', ['a', Char.ofNat 0x300]), ('è', ['e', Char.ofNat 0x300]),
    ('é', ['e', Char.ofNat 0x301]), ('ì', ['i', Char.ofNat 0x300]),
    ('í', ['i', Char.ofNat 0x301]), ('ò', ['o', Char.ofNat 0x300]),
    ('ó', ['o', Char.ofNat 0x301]), ('ù', ['u', Char.ofNat 0x300]),
    ('ú', ['u', Char.ofNat 0x301]), ('À', ['A', Char.ofNat 0x300]),
    ('È', ['E', Char.ofNat 0x300]), ('É', ['E', Char.ofNat 0x301]),
    ('Ì', ['I', Char.ofNat 0x300]), ('Í', ['I', Char.ofNat 0x301]),
    ('Ò', ['O', Char.ofNat 0x300]), ('Ó', ['O', Char.ofNat 0x301]),
    ('Ù', ['U', Char.ofNat 0x300]), ('Ú', ['U', Char.ofNat 0x301]),
    ('ç', ['c', Char.ofNat 0x327]), ('Ç', ['C', Char.ofNat 0x327]),
    ('ä', ['a', Char.ofNat 0x308]), ('ö', ['o', Char.ofNat 0x308]),
    ('ü', ['u', Char.ofNat 0x308]), ('ñ', ['n', Char.ofNat 0x303]) ]

/-- NFD form of a single character (table lookup, identity by default). -/
def nfdChar (c : Char) : List Char :=
  match nfdTable.find? (fun e => e.1 == c) with
  | some e => e.2
  | none => [c]

/-- Category `Mn` (nonspacing combining marks): modelled as the Combining
Diacritical Marks block U+0300–U+036F, which contains every mark produced by
`nfdTable`. -/
def isMnChar (c : Char) : Bool := decide (0x300 ≤ c.toNat ∧ c.toNat ≤ 0x36F)

/-- One character of `unicodedata.normalize('NFD', s)` followed by the
removal of `Mn` characters. -/
def stripChar (c : Char) : List Char := (nfdChar c).filter (fun d => !isMnChar d)

/-- The accent-stripping step of `normalize_name` in `matching_functionsV4.py`:
NFD-decompose and drop nonspacing marks. -/
def stripAccents (s : Str) : Str := s.flatMap stripChar

/-- The dash character class `[‐‑–—]` of the source. -/
def dashChars : List Char := ['‐', '‑', '–', '—']

/-- The character class of the source's apostrophe substitution.  In the
source bytes the raw regex is the concatenation of the Python literals
`r'['` and `'\x60\xb4]'`, so the class holds exactly the backtick U+0060 and
the acute accent U+00B4. -/
def aposChars : List Char := [Char.ofNat 0x60, Char.ofNat 0xB4]

/-- The ASCII apostrophe, the target of the apostrophe substitution. -/
def quoteChar : Char := Char.ofNat 0x27

/-- `re.sub` of the dash class with `'-'`, characterwise. -/
def substDash (c : Char) : Char := if c ∈ dashChars then '-' else c

/-- `re.sub` of the apostrophe class with `'`, characterwise. -/
def substApos (c : Char) : Char := if c ∈ aposChars then quoteChar else c

/-- `re.sub(r'[,;]', ' ', s)`, characterwise. -/
def substComma (c : Char) : Char := if c = ',' ∨ c = ';' then ' ' else c

namespace V4

/-- `normalize_name` of `matching_functionsV4.py`: NFD + strip marks,
normalize dashes, apostrophes, commas/semicolons, then collapse whitespace
runs and trim.  `joinSpace (pySplit s)` is exactly
`re.sub(r'\s+', ' ', s.strip())`: maximal non-whitespace blocks joined by
single spaces. -/
def normalize_name (s : Str) : Str :=
  if s = [] then []
  else
    let s1 := stripAccents s
    let s2 := s1.map substDash
    let s3 := s2.map substApos
    let s4 := s3.map substComma
    joinSpace (pySplit s4)

/-- `parse_professor_name` of `matching_functionsV4.py`: tokens of the
original name (falling back to the preprocessed tokens when the original is
empty); uppercase tokens (Python `str.isupper`) form the family name, the
rest the given name, both in order; if no token is uppercase, first token =
family name, rest = given name. -/
def parse_professor_name (prof_tokens : List Str) (original_name : Str) : Str × Str :=
  let original_tokens := if original_name ≠ [] then pySplit original_name else prof_tokens
  if original_tokens.length < 2 then ([], [])
  else
    let cognome_tokens := original_tokens.filter pyIsUpper
    let nome_tokens := original_tokens.filter (fun t => !pyIsUpper t)
    let prof_nome := joinSpace nome_tokens
    let prof_cognome := joinSpace cognome_tokens
    if prof_cognome = [] then (joinSpace (original_tokens.drop 1), original_tokens.headD [])
    else (prof_nome, prof_cognome)

/-- `parse_author_name` of `matching_functionsV4.py`.  The second component
is `Sum.inl` for a surname string and `Sum.inr` for the Python branch that
returns the whole token list (the `isinstance(…, list)` sentinel). -/
def parse_author_name (author_tokens : List Str) : Str × (Str ⊕ List Str) :=
  if author_tokens = [] then ([], Sum.inl [])
  else if author_tokens.length = 2 ∧ is_initial (author_tokens.headD []) = true then
    (extract_initial (author_tokens.headD []), Sum.inl (author_tokens.getD 1 []))
  else if author_tokens.length = 2 then
    (author_tokens.headD [], Sum.inl (author_tokens.getD 1 []))
  else if author_tokens.length > 6 then ([], Sum.inl [])
  else ([], Sum.inr author_tokens)

/-- The hard-coded Italian abbreviation table of `matching_functionsV4.py`. -/
def abbreviations : List (Str × List Str) :=
  [ (str "giuseppe", [str "peppe", str "beppe", str "pino"]),
    (str "giovanni", [str "gianni", str "nino"]),
    (str "francesco", [str "franco", str "checco"]),
    (str "alessandro", [str "sandro", str "alex"]),
    (str "antonio", [str "toni", str "tonino"]),
    (str "maria", [str "mary"]) ]

/-- `check_common_abbreviations` of `matching_functionsV4.py`. -/
def check_common_abbreviations (full_name abbrev_name : Str) : Bool :=
  let full_lower := pyLower full_name
  let abbrev_lower := pyLower abbrev_name
  match abbreviations.find? (fun e => e.1 == full_lower) with
  | some e => decide (abbrev_lower ∈ e.2)
  | none => false

/-- `calculate_first_name_score_optimized` of `matching_functionsV4.py`. -/
def calculate_first_name_score_optimized (prof_nome0 author_first0 : Str) : ℚ :=
  let prof_nome := pyStrip prof_nome0
  let author_first := pyStrip author_first0
  if is_initial author_first then
    if prof_nome ≠ [] ∧ pyUpper (prof_nome.take 1) = pyUpper (extract_initial author_first)
    then 95 else 10
  else if is_initial prof_nome then
    if author_first ≠ [] ∧ pyUpper (author_first.take 1) = pyUpper (extract_initial prof_nome)
    then 95 else 10
  else
    let jaro_score := jaroWinklerSim (pyUpper prof_nome) (pyUpper author_first) * 100
    if check_common_abbreviations prof_nome author_first then min 100 (jaro_score + 10)
    else jaro_score

/-- `calculate_token_set_score_optimized` of `matching_functionsV4.py`:
token-set ratio of the uppercased alphabetic tokens plus 10 points per
initial-letter/startswith hit, capped at 100. -/
def calculate_token_set_score_optimized (prof_tokens author_tokens : List Str) : ℚ :=
  let prof_tokens_clean := (prof_tokens.filter pyIsAlpha).map pyUpper
  let author_tokens_clean := (author_tokens.filter pyIsAlpha).map pyUpper
  let token_set_score := fuzzTokenSet (joinSpace prof_tokens_clean) (joinSpace author_tokens_clean)
  let initial_bonus := (prof_tokens.map (fun ptok =>
    (author_tokens.map (fun atok =>
      if is_initial atok then
        (if (pyUpper (extract_initial atok)).isPrefixOf (pyUpper ptok) then (10 : ℚ) else 0)
      else if is_initial ptok then
        (if (pyUpper (extract_initial ptok)).isPrefixOf (pyUpper atok) then (10 : ℚ) else 0)
      else 0)).sum)).sum
  min 100 (token_set_score + initial_bonus)

/-- The weighted family/given combination at the end of
`calculate_name_score_optimized` (family 70% / given 30%, +5 bonus capped at
100 when both parts exceed 95, halved when the family score is below 60),
as a function of the two parsed `(given, family)` pairs. -/
def weightedNameScore (prof_nome prof_cognome author_nome author_cognome : Str) : ℚ :=
  let cognome_score := jaroWinklerSim (pyUpper prof_cognome) (pyUpper author_cognome) * 100
  let nome_score := calculate_first_name_score_optimized prof_nome author_nome
  let final0 := cognome_score * (7 / 10) + nome_score * (3 / 10)
  let final1 :=
    if cognome_score > 95 ∧ nome_score > 95 then min 100 (final0 + 5) else final0
  if cognome_score < 60 then final1 * (1 / 2) else final1

/-- A professor record after `preprocess_professor_data`: the fields read by
the scorer and the resolver.  `id` is `prof.get('id')` (`none` models a
missing key). -/
structure ProfData where
  id : Option Nat
  nome_completo : Str
  nome_completo_normalized : Str
  nome_completo_tokens : List Str
  nome_completo_original : Str
deriving DecidableEq, Repr

/-- An author record after `preprocess_authors_data`: the fields read by the
scorer. -/
structure AuthorData where
  display_name : Str
  display_name_normalized : Str
  display_name_tokens : List Str
deriving DecidableEq, Repr

/-- `calculate_name_score_optimized` of `matching_functionsV4.py`. -/
def calculate_name_score_optimized (prof_data : ProfData) (author_data : AuthorData) : ℚ :=
  let prof_clean := prof_data.nome_completo_normalized
  let author_clean := author_data.display_name_normalized
  if prof_clean = [] ∨ author_clean = [] then 0
  else
    let prof_tokens := prof_data.nome_completo_tokens
    let author_tokens := author_data.display_name_tokens
    if prof_tokens.length < 2 ∨ author_tokens.length < 2 then
      jaroWinklerSim prof_clean author_clean * 100
    else
      let pn := parse_professor_name prof_tokens prof_data.nome_completo_original
      match parse_author_name author_tokens with
      | (_, Sum.inr _) => calculate_token_set_score_optimized prof_tokens author_tokens
      | (author_nome, Sum.inl author_cognome) =>
        weightedNameScore pn.1 pn.2 author_nome author_cognome

/-- One professor record as produced by `preprocess_professor_data`. -/
def preprocess_professor (id : Option Nat) (nome_completo : Str) : ProfData :=
  if nome_completo ≠ [] then
    let normalized := normalize_name nome_completo
    { id := id, nome_completo := nome_completo, nome_completo_normalized := normalized,
      nome_completo_tokens := pySplit normalized, nome_completo_original := nome_completo }
  else
    { id := id, nome_completo := nome_completo, nome_completo_normalized := [],
      nome_completo_tokens := [], nome_completo_original := [] }

/-- One author record as produced by `preprocess_authors_data`. -/
def preprocess_author (display_name : Str) : AuthorData :=
  if display_name ≠ [] then
    let normalized := normalize_name display_name
    { display_name := display_name, display_name_normalized := normalized,
      display_name_tokens := pySplit normalized }
  else
    { display_name := display_name, display_name_normalized := [], display_name_tokens := [] }

/-- One entry of the `all_matches` list: the tuple
`(score, prof, author_id, match_type)`. -/
structure Cand where
  score : ℚ
  prof : ProfData
  author_id : Nat
  match_type : Str
deriving DecidableEq, Repr

/-- Loop of `resolve_matches`, with the two `used` sets explicit.  A
committed candidate is returned whole: the dict the source emits
(`score`, registry name, author display name, `author_id`, orcid) is a
projection of the committed `(score, prof, author_id)` through
`authors_dict`, so every claim about scores and identifiers is a statement
about this list. -/
def resolveAux : List Cand → ℚ → List (Option Nat) → List Nat → List Cand
  | [], _, _, _ => []
  | c :: rest, th, usedP, usedA =>
    if c.score < th then []
    else if c.prof.id ∉ usedP ∧ c.author_id ∉ usedA then
      c :: resolveAux rest th (c.prof.id :: usedP) (c.author_id :: usedA)
    else resolveAux rest th usedP usedA

/-- `resolve_matches` of `matching_functionsV4.py`: walk the candidate list,
stop at the first score below the threshold (the list is expected sorted
descending, so `break`), and commit a candidate when neither its professor
id nor its author id has been consumed. -/
def resolve_matches (all_matches : List Cand) (threshold_resolve : ℚ) : List Cand :=
  resolveAux all_matches threshold_resolve [] []

end V4

namespace V3

/-- `normalize_name` of `matching_functionsV3.py`: dash and apostrophe
substitution plus whitespace collapsing only — no Unicode decomposition and
no comma/semicolon substitution. -/
def normalize_name (s : Str) : Str :=
  if s = [] then []
  else joinSpace (pySplit ((s.map substDash).map substApos))

/-- `parse_professor_name` of `matching_functionsV3.py` (tokens only, no
original-name argument; same uppercase rule as V4). -/
def parse_professor_name (prof_tokens : List Str) : Str × Str :=
  if prof_tokens.length < 2 then ([], [])
  else
    let cognome_tokens := prof_tokens.filter pyIsUpper
    let nome_tokens := prof_tokens.filter (fun t => !pyIsUpper t)
    let prof_nome := joinSpace nome_tokens
    let prof_cognome := joinSpace cognome_tokens
    if prof_cognome = [] then (joinSpace (prof_tokens.drop 1), prof_tokens.headD [])
    else (prof_nome, prof_cognome)

/-- `parse_author_name` of `matching_functionsV3.py`: same cases as V4; the
V3 source has no guard for the empty list (Python would raise `IndexError`
there, unreachable from `calculate_name_score` which requires ≥ 2 tokens);
the empty case is modelled as the two-empty-strings result. -/
def parse_author_name (author_tokens : List Str) : Str × (Str ⊕ List Str) :=
  if author_tokens = [] then ([], Sum.inl [])
  else if is_initial (author_tokens.headD []) = true ∧ author_tokens.length = 2 then
    (extract_initial (author_tokens.headD []), Sum.inl (author_tokens.getD 1 []))
  else if author_tokens.length = 2 then
    (author_tokens.headD [], Sum.inl (author_tokens.getD 1 []))
  else if author_tokens.length > 6 then ([], Sum.inl [])
  else ([], Sum.inr author_tokens)

/-- The V3 abbreviation table: the duplicated dict key `'francesco'` means
the later entry `['franco']` wins, dropping `'checco'`. -/
def abbreviations : List (Str × List Str) :=
  [ (str "giuseppe", [str "peppe", str "beppe", str "pino"]),
    (str "giovanni", [str "gianni", str "nino"]),
    (str "francesco", [str "franco"]),
    (str "alessandro", [str "sandro", str "alex"]),
    (str "antonio", [str "toni", str "tonino"]),
    (str "maria", [str "mary"]) ]

/-- `check_common_abbreviations` of `matching_functionsV3.py` (normalizes
its inputs, unlike the V4 variant). -/
def check_common_abbreviations (full_name abbrev_name : Str) : Bool :=
  let full_lower := pyLower (normalize_name full_name)
  let abbrev_lower := pyLower (normalize_name abbrev_name)
  match abbreviations.find? (fun e => e.1 == full_lower) with
  | some e => decide (abbrev_lower ∈ e.2)
  | none => false

/-- `calculate_first_name_score` of `matching_functionsV3.py`. -/
def calculate_first_name_score (prof_nome0 author_first0 : Str) : ℚ :=
  let prof_nome := pyStrip prof_nome0
  let author_first := pyStrip author_first0
  if is_initial author_first then
    if prof_nome ≠ [] ∧ pyUpper (prof_nome.take 1) = pyUpper (extract_initial author_first)
    then 95 else 10
  else if is_initial prof_nome then
    if author_first ≠ [] ∧ pyUpper (author_first.take 1) = pyUpper (extract_initial prof_nome)
    then 95 else 10
  else
    let jaro_score :=
      jaroWinklerSim (pyUpper (normalize_name prof_nome)) (pyUpper (normalize_name author_first)) * 100
    if check_common_abbreviations prof_nome author_first then min 100 (jaro_score + 10)
    else jaro_score

/-- `calculate_token_set_score` of `matching_functionsV3.py`. -/
def calculate_token_set_score (prof_tokens author_tokens : List Str) : ℚ :=
  let prof_tokens_clean := (prof_tokens.filter pyIsAlpha).map (fun t => pyUpper (normalize_name t))
  let author_tokens_clean := (author_tokens.filter pyIsAlpha).map (fun t => pyUpper (normalize_name t))
  let token_set_score := fuzzTokenSet (joinSpace prof_tokens_clean) (joinSpace author_tokens_clean)
  let initial_bonus := (prof_tokens.map (fun ptok =>
    (author_tokens.map (fun atok =>
      if is_initial atok then
        (if (pyUpper (extract_initial atok)).isPrefixOf (pyUpper (normalize_name ptok))
         then (10 : ℚ) else 0)
      else if is_initial ptok then
        (if (pyUpper (extract_initial ptok)).isPrefixOf (pyUpper (normalize_name atok))
         then (10 : ℚ) else 0)
      else 0)).sum)).sum
  min 100 (token_set_score + initial_bonus)

/-- `calculate_name_score` of `matching_functionsV3.py`: the raw-string
pairwise scorer of the spec's §4.3. -/
def calculate_name_score (prof_name author_name : Str) : ℚ :=
  if prof_name = [] ∨ author_name = [] then 0
  else
    let prof_clean := normalize_name prof_name
    let author_clean := normalize_name author_name
    let prof_tokens := pySplit prof_clean
    let author_tokens := pySplit author_clean
    if prof_tokens.length < 2 ∨ author_tokens.length < 2 then
      jaroWinklerSim prof_clean author_clean * 100
    else
      let pn := parse_professor_name prof_tokens
      match parse_author_name author_tokens with
      | (_, Sum.inr _) => calculate_token_set_score prof_tokens author_tokens
      | (author_nome, Sum.inl author_cognome) =>
        let cognome_score :=
          jaroWinklerSim (pyUpper (normalize_name pn.2)) (pyUpper (normalize_name author_cognome)) * 100
        let nome_score := calculate_first_name_score pn.1 author_nome
        let final0 := cognome_score * (7 / 10) + nome_score * (3 / 10)
        let final1 :=
          if cognome_score > 95 ∧ nome_score > 95 then min 100 (final0 + 5) else final0
        if cognome_score < 60 then final1 * (1 / 2) else final1

end V3

namespace Inst

/-- `calculate_institution_score` of `mathcinguniv2.py`: best of Jaro-Winkler
(scaled) and token-set ratio on the uppercased cleaned names; zero when an
input is empty or shorter than two characters after stripping. -/
def calculate_institution_score (miur_clean oa_clean : Str) : ℚ :=
  if miur_clean = [] ∨ oa_clean = [] then 0
  else if (pyStrip miur_clean).length < 2 ∨ (pyStrip oa_clean).length < 2 then 0
  else
    let miur_upper := pyUpper miur_clean
    let oa_upper := pyUpper oa_clean
    max (jaroWinklerSim miur_upper oa_upper * 100) (fuzzTokenSet miur_upper oa_upper)

/-- One row of the OpenAlex stack prepared by `prepare_institution_stacks`
(`alternatives_pulite` is elementwise-cleaned from
`display_name_alternatives`, so the two lists have equal length). -/
structure OARow where
  id : Nat
  display_name : Str
  display_name_pulito : Str
  display_name_alternatives : List Str
  alternatives_pulite : List Str
deriving DecidableEq, Repr, Inhabited

/-- One row of the MIUR stack prepared by `prepare_institution_stacks`. -/
structure MiurRow where
  NomeOperativo : Str
  NomeEsteso : Str
  nome_pulito : Str
deriving DecidableEq, Repr

/-- The running best-candidate state of the inner loop of
`greedy_institution_matching`. -/
structure BestSt where
  best_score : ℚ
  best_match_idx : Option Nat
  best_match_type : Option Str
  best_oa_name : Option Str
deriving Repr

/-- One emitted match of `greedy_institution_matching`. -/
structure InstMatch where
  score : ℚ
  nome_operativo_miur : Str
  nome_esteso_miur : Str
  display_name_oa : Option Str
  id_openalex : Nat
  match_type : Option Str
deriving DecidableEq, Repr

/-- Inner-loop body of `greedy_institution_matching` for one OpenAlex row:
skip consumed rows; score the display name; when still below the threshold,
also score each nonempty cleaned alternate name (paired with its original
spelling, as `enumerate`/indexing does in the source). -/
def scanRow (miur_clean : Str) (threshold : ℚ) (used : List Nat)
    (st0 : BestSt) (ir : Nat × OARow) : BestSt :=
  let idx := ir.1
  let oa_row := ir.2
  if idx ∈ used then st0
  else
    let score := calculate_institution_score miur_clean oa_row.display_name_pulito
    let st1 :=
      if score > st0.best_score then
        { best_score := score, best_match_idx := some idx,
          best_match_type := some (str "display_name"),
          best_oa_name := some oa_row.display_name }
      else st0
    if st1.best_score < threshold then
      (oa_row.alternatives_pulite.zip oa_row.display_name_alternatives).foldl
        (fun st p =>
          if p.1 ≠ [] then
            let alt_score := calculate_institution_score miur_clean p.1
            if alt_score > st.best_score then
              { best_score := alt_score, best_match_idx := some idx,
                best_match_type := some (str "alternative"), best_oa_name := some p.2 }
            else st
          else st) st1
    else st1

/-- Outer loop of `greedy_institution_matching`: each MIUR row in order
scans all not-yet-consumed OpenAlex rows, keeps the single best score, and
commits it when it reaches the threshold, consuming the OpenAlex row. -/
def greedyAux (oa_stack : List OARow) (threshold : ℚ) :
    List MiurRow → List Nat → List InstMatch
  | [], _ => []
  | miur_row :: rest, used =>
    let st := (oa_stack.enum).foldl (scanRow miur_row.nome_pulito threshold used)
      { best_score := 0, best_match_idx := none, best_match_type := none, best_oa_name := none }
    match st.best_match_idx with
    | some i =>
      if st.best_score ≥ threshold then
        { score := st.best_score, nome_operativo_miur := miur_row.NomeOperativo,
          nome_esteso_miur := miur_row.NomeEsteso, display_name_oa := st.best_oa_name,
          id_openalex := (oa_stack.getD i default).id, match_type := st.best_match_type }
          :: greedyAux oa_stack threshold rest (i :: used)
      else greedyAux oa_stack threshold rest used
    | none => greedyAux oa_stack threshold rest used

/-- `greedy_institution_matching` of `mathcinguniv2.py`: the per-left-entry
greedy best-pick resolution strategy. -/
def greedy_institution_matching (miur_stack : List MiurRow) (oa_stack : List OARow)
    (threshold : ℚ) : List InstMatch :=
  greedyAux oa_stack threshold miur_stack []

end Inst

/-! ## Definitions taken from the specification text, for comparison with the
code (refinement checks), and the concrete scenario records used by the
claims. -/

/-- Token predicate written in the claim text of C5: the token is composed
entirely of uppercase alphabetic characters. -/
def allUpperAlpha (t : Str) : Bool := !t.isEmpty && t.all (fun c => c.isAlpha && c.isUpper)

/-- Modelled from the spec (§4.2 registry variant, claim C5): family tokens
are exactly the tokens composed entirely of uppercase alphabetic characters,
the rest are given-name tokens, each group in order; when no token
qualifies, first token = family, remaining tokens = given.  Results are
`(given, family)` like the source parser. -/
def allUpperAlphaRule (name : Str) : Str × Str :=
  let tokens := pySplit name
  let cog := tokens.filter allUpperAlpha
  if cog ≠ [] then
    (joinSpace (tokens.filter (fun t => !allUpperAlpha t)), joinSpace cog)
  else (joinSpace (tokens.drop 1), tokens.headD [])

/-- The token-classification rule the V4 code implements (Python
`str.isupper`: every cased character uppercase and at least one cased
character, with no all-alphabetic requirement), with the same fallback. -/
def isupperRule (tokens : List Str) : Str × Str :=
  if tokens.filter pyIsUpper ≠ [] then
    (joinSpace (tokens.filter (fun t => !pyIsUpper t)), joinSpace (tokens.filter pyIsUpper))
  else (joinSpace (tokens.drop 1), tokens.headD [])

/-- Registry record of the §8 scenario `"Giuseppe VERDI"`. -/
def profGV : V4.ProfData := V4.preprocess_professor (some 1) (str "Giuseppe VERDI")

/-- Candidate record of the §8 scenario `"G. Verdi"`. -/
def authGV : V4.AuthorData := V4.preprocess_author (str "G. Verdi")

/-- A candidate display name with seven tokens (more than six). -/
def authSeven : V4.AuthorData :=
  V4.preprocess_author (str "Giuseppe Verdi Maria Anna Paolo Luca Sofia")

/-- The `"Giuseppe VERDI"`/`"G. Verdi"` candidate pair at its exact score. -/
def candGV : V4.Cand :=
  { score := 197 / 2, prof := profGV, author_id := 7, match_type := str "display_name" }

/-- A professor record whose dict has no `id` key. -/
def profN1 : V4.ProfData := V4.preprocess_professor none (str "Giuseppe VERDI")

/-- A second, distinct professor record whose dict has no `id` key. -/
def profN2 : V4.ProfData := V4.preprocess_professor none (str "Maria ROSSI")

/-- High-scoring candidate for the first id-less professor (author 1). -/
def candN1 : V4.Cand :=
  { score := 95, prof := profN1, author_id := 1, match_type := str "display_name" }

/-- Above-threshold candidate for the second id-less professor, with a
different, still-free author (author 2). -/
def candN2 : V4.Cand :=
  { score := 90, prof := profN2, author_id := 2, match_type := str "display_name" }

/-- MIUR row `"MILANX"` for the strategy-divergence scenario. -/
def miurL1 : Inst.MiurRow :=
  { NomeOperativo := str "MILANX", NomeEsteso := str "MILANX", nome_pulito := str "MILANX" }

/-- MIUR row `"MILANO"` for the strategy-divergence scenario. -/
def miurL2 : Inst.MiurRow :=
  { NomeOperativo := str "MILANO", NomeEsteso := str "MILANO", nome_pulito := str "MILANO" }

/-- OpenAlex row `"MILANO"` (id 1) for the strategy-divergence scenario. -/
def oaR1 : Inst.OARow :=
  { id := 1, display_name := str "MILANO", display_name_pulito := str "MILANO",
    display_name_alternatives := [], alternatives_pulite := [] }

/-- OpenAlex row `"MILAXX"` (id 2) for the strategy-divergence scenario. -/
def oaR2 : Inst.OARow :=
  { id := 2, display_name := str "MILAXX", display_name_pulito := str "MILAXX",
    display_name_alternatives := [], alternatives_pulite := [] }

/-- Left entry `"MILANX"` (id 1) as a registry record for the resolver. -/
def profM1 : V4.ProfData := V4.preprocess_professor (some 1) (str "MILANX")

/-- Left entry `"MILANO"` (id 2) as a registry record for the resolver. -/
def profM2 : V4.ProfData := V4.preprocess_professor (some 2) (str "MILANO")

/-- The scored candidate list on the `MILAN*` score matrix, flattened in
enumeration order and stably sorted by descending score, exactly as the
candidate generator hands it to `resolve_matches`.  Scores are the
`calculate_institution_score` values of the same name pairs the greedy
strategy sees. -/
def instCands : List V4.Cand :=
  [ { score := Inst.calculate_institution_score (str "MILANO") (str "MILANO"),
      prof := profM2, author_id := 1, match_type := str "display_name" },
    { score := Inst.calculate_institution_score (str "MILANX") (str "MILANO"),
      prof := profM1, author_id := 1, match_type := str "display_name" },
    { score := Inst.calculate_institution_score (str "MILANX") (str "MILAXX"),
      prof := profM1, author_id := 2, match_type := str "display_name" },
    { score := Inst.calculate_institution_score (str "MILANO") (str "MILAXX"),
      prof := profM2, author_id := 2, match_type := str "display_name" } ]

/-! ## Helper lemmas -/

theorem head?_mem {α : Type} {l : List α} {a : α} (h : l.head? = some a) : a ∈ l := by
  cases l with
  | nil => simp at h
  | cons x xs =>
    simp only [List.head?_cons, Option.some.injEq] at h
    exact h ▸ List.mem_cons_self x xs

theorem resolveAux_score_ge (th : ℚ) :
    ∀ (ms : List V4.Cand) (uP : List (Option Nat)) (uA : List Nat),
      ∀ c ∈ V4.resolveAux ms th uP uA, th ≤ c.score := by
  intro ms
  induction ms with
  | nil => intro uP uA c hc; simp [V4.resolveAux] at hc
  | cons m rest ih =>
    intro uP uA c hc
    simp only [V4.resolveAux] at hc
    by_cases h1 : m.score < th
    · rw [if_pos h1] at hc; simp at hc
    · rw [if_neg h1] at hc
      by_cases h2 : m.prof.id ∉ uP ∧ m.author_id ∉ uA
      · rw [if_pos h2] at hc
        rcases List.mem_cons.mp hc with rfl | hc'
        · exact not_lt.mp h1
        · exact ih _ _ c hc'
      · rw [if_neg h2] at hc; exact ih _ _ c hc

theorem resolveAux_mem_free (th : ℚ) :
    ∀ (ms : List V4.Cand) (uP : List (Option Nat)) (uA : List Nat),
      ∀ c ∈ V4.resolveAux ms th uP uA, c.prof.id ∉ uP ∧ c.author_id ∉ uA := by
  intro ms
  induction ms with
  | nil => intro uP uA c hc; simp [V4.resolveAux] at hc
  | cons m rest ih =>
    intro uP uA c hc
    simp only [V4.resolveAux] at hc
    by_cases h1 : m.score < th
    · rw [if_pos h1] at hc; simp at hc
    · rw [if_neg h1] at hc
      by_cases h2 : m.prof.id ∉ uP ∧ m.author_id ∉ uA
      · rw [if_pos h2] at hc
        rcases List.mem_cons.mp hc with rfl | hc'
        · exact h2
        · have h3 := ih _ _ c hc'
          exact ⟨fun hm => h3.1 (List.mem_cons_of_mem _ hm),
                 fun hm => h3.2 (List.mem_cons_of_mem _ hm)⟩
      · rw [if_neg h2] at hc; exact ih _ _ c hc

theorem resolveAux_pairwise (th : ℚ) :
    ∀ (ms : List V4.Cand) (uP : List (Option Nat)) (uA : List Nat),
      (V4.resolveAux ms th uP uA).Pairwise
        (fun a b => a.prof.id ≠ b.prof.id ∧ a.author_id ≠ b.author_id) := by
  intro ms
  induction ms with
  | nil => intro uP uA; simp [V4.resolveAux]
  | cons m rest ih =>
    intro uP uA
    simp only [V4.resolveAux]
    by_cases h1 : m.score < th
    · rw [if_pos h1]; exact List.Pairwise.nil
    · rw [if_neg h1]
      by_cases h2 : m.prof.id ∉ uP ∧ m.author_id ∉ uA
      · rw [if_pos h2]
        refine List.Pairwise.cons ?_ (ih _ _)
        intro b hb
        have h3 := resolveAux_mem_free th rest _ _ b hb
        refine ⟨fun he => h3.1 ?_, fun he => h3.2 ?_⟩
        · rw [← he]; exact List.mem_cons_self _ _
        · rw [← he]; exact List.mem_cons_self _ _
      · rw [if_neg h2]; exact ih _ _

theorem countP_le_one_of_pairwise {α β : Type} [DecidableEq β] (f : α → β) (v : β) :
    ∀ (l : List α), l.Pairwise (fun a b => f a ≠ f b) →
      l.countP (fun x => decide (f x = v)) ≤ 1 := by
  intro l hl
  induction hl with
  | nil => simp
  | @cons a l2 hhead htail ih =>
    rw [List.countP_cons]
    by_cases h : f a = v
    · have hz : l2.countP (fun x => decide (f x = v)) = 0 := by
        rw [List.countP_eq_zero]
        intro x hx
        simp only [decide_eq_true_eq]
        intro hfx
        exact (hhead x hx) (by rw [h, hfx])
      simp [hz, h]
    · simp [h]
      exact ih

/-! ## Claim theorems -/

/-- C2: for every candidate list and threshold, no professor identifier and
no author identifier appears in more than one Match emitted by
`resolve_matches` (1-to-1 constraint). -/
theorem c2_resolve_one_to_one (all_matches : List V4.Cand) (threshold : ℚ) :
    (V4.resolve_matches all_matches threshold).Pairwise
      (fun a b => a.prof.id ≠ b.prof.id ∧ a.author_id ≠ b.author_id) :=
  resolveAux_pairwise threshold all_matches [] []

/-- C3: every Match emitted by `resolve_matches` has score ≥ the acceptance
threshold, for every candidate list and every threshold. -/
theorem c3_threshold_respect (all_matches : List V4.Cand) (threshold : ℚ) :
    ∀ m ∈ V4.resolve_matches all_matches threshold, threshold ≤ m.score :=
  resolveAux_score_ge threshold all_matches [] []

theorem c3_threshold_respect_witness : (197 : ℚ) / 2 ≤ candGV.score :=
  c3_threshold_respect [candGV] (197 / 2) candGV (by with_unfolding_all decide)

/-- C10: `resolve_matches` distinguishes registry records only by
`prof.get('id')`: for every input and threshold at most one emitted Match
carries any given professor-id value (including the missing-key value
`none`); concretely, of two distinct id-less professors scoring 95 and 90
against two different free authors at threshold 75, only the first is
matched and the second is silently skipped. -/
theorem c10_shared_prof_id (all_matches : List V4.Cand) (threshold : ℚ) (v : Option Nat) :
    (V4.resolve_matches all_matches threshold).countP (fun c => decide (c.prof.id = v)) ≤ 1 ∧
      V4.resolve_matches [candN1, candN2] 75 = [candN1] :=
  ⟨countP_le_one_of_pairwise (fun c => c.prof.id) v _
      ((resolveAux_pairwise threshold all_matches [] []).imp (fun h => h.1)),
   by with_unfolding_all rfl⟩

/-- C4 (counterexample): the pairwise scorer is not symmetric.
`calculate_name_score("Anna ROSSI", "A. Rossi")` is 98.5 (family "ROSSI"
matches, initial "A" matches) while the swapped call parses "A." as the
family name and scores 0. -/
theorem c4_counterexample :
    V3.calculate_name_score (str "Anna ROSSI") (str "A. Rossi") = 197 / 2 ∧
    V3.calculate_name_score (str "A. Rossi") (str "Anna ROSSI") = 0 ∧
    V3.calculate_name_score (str "Anna ROSSI") (str "A. Rossi") ≠
      V3.calculate_name_score (str "A. Rossi") (str "Anna ROSSI") :=
  ⟨by with_unfolding_all rfl, by with_unfolding_all rfl, by with_unfolding_all decide⟩

/-- C4 (amended): the scorer is asymmetric — `score(a,b)` need not equal
`score(b,a)` (registry and candidate parsing differ), as §8 of the spec
states and contrary to §4.3's symmetry assertion. -/
theorem c4_asymmetry :
    ∃ a b : Str, V3.calculate_name_score a b ≠ V3.calculate_name_score b a :=
  ⟨str "Anna ROSSI", str "A. Rossi", by with_unfolding_all decide⟩

/-- C7 (counterexample): for registry `"Giuseppe VERDI"` vs candidate
`"G. Verdi"` the final score is 98.5, not 100: the parser returns the
extracted initial `"G"` (not `"G."`), and the +5 bonus does not fire because
it requires a given-name score strictly greater than 95 while the
initial-match branch returns exactly 95. -/
theorem c7_counterexample :
    V4.calculate_name_score_optimized profGV authGV = 197 / 2 ∧
    V4.calculate_name_score_optimized profGV authGV ≠ 100 ∧
    V4.parse_author_name authGV.display_name_tokens = (str "G", Sum.inl (str "Verdi")) :=
  ⟨by with_unfolding_all rfl, by with_unfolding_all decide, by with_unfolding_all rfl⟩

/-- C7 (amended): for registry `"Giuseppe VERDI"` vs candidate `"G. Verdi"`:
the parsers yield (given "Giuseppe", family "VERDI") and (extracted initial
"G", family "Verdi"); the family score is 100; the given-name branch detects
the initial match and returns 95; the +5 bonus does NOT apply (it requires
strictly more than 95), so the final score is 98.5 = 100·0.7 + 95·0.3, and
the Match is accepted at any threshold up to 98.5 (shown at 98.5 itself). -/
theorem c7_scenario :
    V4.parse_professor_name profGV.nome_completo_tokens profGV.nome_completo_original
      = (str "Giuseppe", str "VERDI") ∧
    V4.parse_author_name authGV.display_name_tokens = (str "G", Sum.inl (str "Verdi")) ∧
    jaroWinklerSim (pyUpper (str "VERDI")) (pyUpper (str "Verdi")) * 100 = 100 ∧
    V4.calculate_first_name_score_optimized (str "Giuseppe") (str "G") = 95 ∧
    V4.calculate_name_score_optimized profGV authGV = 197 / 2 ∧
    V4.resolve_matches [candGV] (197 / 2) = [candGV] :=
  ⟨by with_unfolding_all rfl, by with_unfolding_all rfl, by with_unfolding_all rfl,
   by with_unfolding_all rfl, by with_unfolding_all rfl, by with_unfolding_all rfl⟩

/-- C9: the two resolution strategies are not equivalent.  On the same
2×2 score matrix (scores produced by `calculate_institution_score` on the
`MILAN*` names) at threshold 90, global-sort-then-claim resolution assigns
MILANO→id 1 and MILANX→id 2 (two matches), while per-left-entry greedy
best-pick resolution assigns MILANX→id 1 and leaves MILANO unmatched (one
match): different assignments. -/
theorem c9_strategies_differ :
    (V4.resolve_matches instCands 90).map (fun c => (c.prof.nome_completo, c.author_id))
      = [(str "MILANO", 1), (str "MILANX", 2)] ∧
    (Inst.greedy_institution_matching [miurL1, miurL2] [oaR1, oaR2] 90).map
        (fun r => (r.nome_operativo_miur, r.id_openalex)) = [(str "MILANX", 1)] ∧
    (V4.resolve_matches instCands 90).map (fun c => (c.prof.nome_completo, c.author_id))
      ≠ (Inst.greedy_institution_matching [miurL1, miurL2] [oaR1, oaR2] 90).map
          (fun r => (r.nome_operativo_miur, r.id_openalex)) :=
  ⟨by with_unfolding_all rfl, by with_unfolding_all rfl, by with_unfolding_all decide⟩

theorem pySpace_false_of_not {c : Char} (hc : ¬ pySpace c = true) : pySpace c = false :=
  Bool.not_eq_true _ ▸ eq_false_of_ne_true hc

theorem pySplit_nil : pySplit [] = [] := rfl

theorem pySplit_cons (c : Char) (rest : Str) :
    pySplit (c :: rest) =
      if pySpace c then pySplit rest else pySplitStep c rest (pySplit rest) := rfl

theorem pySplitStep_restnil (c : Char) (ws : List Str) : pySplitStep c [] ws = [[c]] := by
  cases ws <;> rfl

theorem pySplitStep_wsnil (c : Char) (rest : Str) : pySplitStep c rest [] = [[c]] := by
  cases rest <;> rfl

theorem pySplitStep_cons (c d : Char) (rest2 : Str) (w1 : Str) (ws2 : List Str) :
    pySplitStep c (d :: rest2) (w1 :: ws2) =
      if pySpace d then [c] :: w1 :: ws2 else (c :: w1) :: ws2 := rfl

theorem pySplit_spec :
    ∀ (s : Str), ∀ w ∈ pySplit s, w ≠ [] ∧ ∀ c ∈ w, pySpace c = false ∧ c ∈ s := by
  intro s
  induction s with
  | nil => intro w hw; rw [pySplit_nil] at hw; exact absurd hw (List.not_mem_nil w)
  | cons c rest ih =>
    intro w hw
    rw [pySplit_cons] at hw
    by_cases hc : pySpace c
    · rw [if_pos hc] at hw
      have h := ih w hw
      exact ⟨h.1, fun d hd => ⟨(h.2 d hd).1, List.mem_cons_of_mem _ (h.2 d hd).2⟩⟩
    · rw [if_neg hc] at hw
      have hcf : pySpace c = false := pySpace_false_of_not hc
      cases rest with
      | nil =>
        rw [pySplit_nil, pySplitStep_restnil] at hw
        rcases List.mem_singleton.mp hw with rfl
        exact ⟨by simp, fun e he => by
          rcases List.mem_singleton.mp he with rfl
          exact ⟨hcf, List.mem_cons_self _ _⟩⟩
      | cons d rest2 =>
        cases hpr : pySplit (d :: rest2) with
        | nil =>
          rw [hpr, pySplitStep_wsnil] at hw
          rcases List.mem_singleton.mp hw with rfl
          exact ⟨by simp, fun e he => by
            rcases List.mem_singleton.mp he with rfl
            exact ⟨hcf, List.mem_cons_self _ _⟩⟩
        | cons w1 ws2 =>
          rw [hpr, pySplitStep_cons] at hw
          by_cases hd : pySpace d
          · rw [if_pos hd] at hw
            rcases List.mem_cons.mp hw with rfl | hw1
            · exact ⟨by simp, fun e he => by
                rcases List.mem_singleton.mp he with rfl
                exact ⟨hcf, List.mem_cons_self _ _⟩⟩
            · have hmem : w ∈ pySplit (d :: rest2) := by rw [hpr]; exact hw1
              have h := ih w hmem
              exact ⟨h.1, fun e he => ⟨(h.2 e he).1, List.mem_cons_of_mem _ (h.2 e he).2⟩⟩
          · rw [if_neg hd] at hw
            rcases List.mem_cons.mp hw with rfl | hw1
            · refine ⟨by simp, fun e he => ?_⟩
              rcases List.mem_cons.mp he with rfl | he1
              · exact ⟨hcf, List.mem_cons_self _ _⟩
              · have hw1m : w1 ∈ pySplit (d :: rest2) := by
                  rw [hpr]; exact List.mem_cons_self _ _
                have h := ih w1 hw1m
                exact ⟨(h.2 e he1).1, List.mem_cons_of_mem _ (h.2 e he1).2⟩
            · have hmem : w ∈ pySplit (d :: rest2) := by
                rw [hpr]; exact List.mem_cons_of_mem _ hw1
              have h := ih w hmem
              exact ⟨h.1, fun e he => ⟨(h.2 e he).1, List.mem_cons_of_mem _ (h.2 e he).2⟩⟩

theorem joinSpace_ne_nil :
    ∀ (ws : List Str), ws ≠ [] → (∀ w ∈ ws, w ≠ []) → joinSpace ws ≠ [] := by
  intro ws hne h
  cases ws with
  | nil => exact absurd rfl hne
  | cons w ws2 =>
    cases ws2 with
    | nil =>
      simp only [joinSpace]
      exact h w (List.mem_cons_self _ _)
    | cons x xs =>
      simp only [joinSpace]
      intro habs
      have := List.append_eq_nil.mp habs
      simp at this

/-- C5 (counterexample): on registry name `"Luca ROSSI2"` the V4 parser
classifies `"ROSSI2"` as family name (Python `isupper` is true: the digit is
uncased), while the claim's rule — a token is family exactly when composed
entirely of uppercase alphabetic characters — classifies no token as family
and falls back to family = `"Luca"`, given = `"ROSSI2"`. -/
theorem c5_counterexample :
    V4.parse_professor_name [] (str "Luca ROSSI2") = (str "Luca", str "ROSSI2") ∧
    allUpperAlphaRule (str "Luca ROSSI2") = (str "ROSSI2", str "Luca") ∧
    V4.parse_professor_name [] (str "Luca ROSSI2") ≠ allUpperAlphaRule (str "Luca ROSSI2") :=
  ⟨by decide, by decide, by decide⟩

/-- C5 (amended): for every registry name with at least two whitespace
tokens, `parse_professor_name` classifies a token as family exactly when
Python `str.isupper` holds of it (at least one cased character and every
cased character uppercase — tokens with digits or punctuation qualify too),
all other tokens become the given name, each part preserving relative
order; when no token qualifies it falls back to first token = family,
remaining tokens = given. -/
theorem c5_isupper_rule (prof_tokens : List Str) (name : Str)
    (h2 : 2 ≤ (pySplit name).length) :
    V4.parse_professor_name prof_tokens name = isupperRule (pySplit name) := by
  have hname : name ≠ [] := by
    intro h; rw [h] at h2; exact absurd h2 (by decide)
  simp only [V4.parse_professor_name, isupperRule]
  rw [if_pos hname, if_neg (by omega)]
  cases hf : (pySplit name).filter pyIsUpper with
  | nil => simp [joinSpace]
  | cons w ws =>
    have hjoin : joinSpace (w :: ws) ≠ [] := by
      rw [← hf]
      refine joinSpace_ne_nil _ (by rw [hf]; simp) ?_
      intro v hv
      exact (pySplit_spec name v (List.mem_of_mem_filter hv)).1
    rw [if_neg hjoin, if_pos (List.cons_ne_nil w ws)]

theorem c5_isupper_rule_witness :
    V4.parse_professor_name [] (str "Giuseppe VERDI")
      = isupperRule (pySplit (str "Giuseppe VERDI")) :=
  c5_isupper_rule [] (str "Giuseppe VERDI") (by decide)

/-- C6 (counterexample): on the seven-token candidate, the parser returns
the unparseable sentinel and no error, but the score is NOT computed via
the token-set fallback: `calculate_name_score_optimized` returns 0 through
the weighted branch (family compared against the empty string), while the
token-set fallback value on the same tokens is 100. -/
theorem c6_counterexample :
    V4.parse_author_name authSeven.display_name_tokens = ([], Sum.inl []) ∧
    V4.calculate_name_score_optimized profGV authSeven = 0 ∧
    V4.calculate_token_set_score_optimized profGV.nome_completo_tokens
      authSeven.display_name_tokens = 100 ∧
    V4.calculate_name_score_optimized profGV authSeven ≠
      V4.calculate_token_set_score_optimized profGV.nome_completo_tokens
        authSeven.display_name_tokens :=
  ⟨by decide, by with_unfolding_all rfl, by with_unfolding_all rfl,
   by with_unfolding_all decide⟩

/-- C6 (amended): for every preprocessed pair whose normalized names are
nonempty, whose registry name has at least two tokens and whose candidate
display name has more than six tokens, `parse_author_name` returns the
unparseable sentinel (empty, empty) — a pair of strings, not the token-list
sentinel — so the score is computed by the weighted family/given branch
against empty author name parts (not by the token-set fallback), and the
computation is total (no exception). -/
theorem c6_seven_tokens (p : V4.ProfData) (a : V4.AuthorData)
    (hp : p.nome_completo_normalized ≠ []) (ha : a.display_name_normalized ≠ [])
    (hpt : 2 ≤ p.nome_completo_tokens.length) (hat : 6 < a.display_name_tokens.length) :
    V4.parse_author_name a.display_name_tokens = ([], Sum.inl []) ∧
    V4.calculate_name_score_optimized p a =
      V4.weightedNameScore
        (V4.parse_professor_name p.nome_completo_tokens p.nome_completo_original).1
        (V4.parse_professor_name p.nome_completo_tokens p.nome_completo_original).2
        [] [] := by
  have hne : a.display_name_tokens ≠ [] := by
    intro h; rw [h] at hat; exact absurd hat (by decide)
  have hpa : V4.parse_author_name a.display_name_tokens = ([], Sum.inl []) := by
    simp only [V4.parse_author_name]
    rw [if_neg hne, if_neg (fun h => absurd h.1 (by omega)), if_neg (by omega), if_pos hat]
  refine ⟨hpa, ?_⟩
  simp only [V4.calculate_name_score_optimized]
  rw [if_neg (not_or.mpr ⟨hp, ha⟩), if_neg (by omega), hpa]

theorem jaroFind_some {t : Str} {used : List Nat} {c : Char} {lo hi j : Nat}
    (h : jaroFind t used c lo hi = some j) : j < t.length ∧ j ∉ used := by
  unfold jaroFind at h
  have hmem := head?_mem h
  have h2 := List.mem_filter.mp hmem
  have h3 := of_decide_eq_true h2.2
  exact ⟨List.mem_range.mp h2.1, h3.2.2.2⟩

theorem jaroMatchAux_len (t : Str) (bound : Nat) :
    ∀ (p : Str) (i : Nat) (used : List Nat),
      (jaroMatchAux t bound p i used).1.length ≤ p.length := by
  intro p
  induction p with
  | nil => intro i used; simp [jaroMatchAux]
  | cons c rest ih =>
    intro i used
    simp only [jaroMatchAux]
    cases hf : jaroFind t used c (i - bound) (min t.length (i + bound + 1)) with
    | some j =>
      simp only [List.length_cons]
      exact Nat.succ_le_succ (ih (i + 1) (used ++ [j]))
    | none => exact le_trans (ih (i + 1) used) (Nat.le_succ _)

theorem jaroMatchAux_used (t : Str) (bound : Nat) :
    ∀ (p : Str) (i : Nat) (used : List Nat),
      used.Nodup → (∀ x ∈ used, x < t.length) →
      (jaroMatchAux t bound p i used).2.Nodup ∧
      (∀ x ∈ (jaroMatchAux t bound p i used).2, x < t.length) ∧
      (jaroMatchAux t bound p i used).2.length
        = used.length + (jaroMatchAux t bound p i used).1.length := by
  intro p
  induction p with
  | nil => intro i used h1 h2; simpa [jaroMatchAux] using ⟨h1, h2⟩
  | cons c rest ih =>
    intro i used h1 h2
    simp only [jaroMatchAux]
    cases hf : jaroFind t used c (i - bound) (min t.length (i + bound + 1)) with
    | some j =>
      have hj := jaroFind_some hf
      have hnodup : (used ++ [j]).Nodup := by
        rw [List.nodup_append]
        refine ⟨h1, List.nodup_singleton j, ?_⟩
        intro a ha hb
        rw [List.mem_singleton] at hb
        subst hb
        exact hj.2 ha
      have hbound : ∀ x ∈ used ++ [j], x < t.length := by
        intro x hx
        rcases List.mem_append.mp hx with hx | hx
        · exact h2 x hx
        · rw [List.mem_singleton] at hx; subst hx; exact hj.1
      have h := ih (i + 1) (used ++ [j]) hnodup hbound
      refine ⟨h.1, h.2.1, ?_⟩
      rw [h.2.2, List.length_append, List.length_singleton, List.length_cons]
      omega
    | none => exact ih (i + 1) used h1 h2

theorem length_le_of_nodup_lt {l : List Nat} {n : Nat}
    (h1 : l.Nodup) (h2 : ∀ x ∈ l, x < n) : l.length ≤ n := by
  have hcard : l.toFinset.card = l.length := List.toFinset_card_of_nodup h1
  have hsub : l.toFinset ⊆ Finset.range n := by
    intro x hx
    rw [List.mem_toFinset] at hx
    exact Finset.mem_range.mpr (h2 x hx)
  have hle := Finset.card_le_card hsub
  rw [hcard, Finset.card_range] at hle
  exact hle

theorem jaroSim_nonneg_le_one (p t : Str) : 0 ≤ jaroSim p t ∧ jaroSim p t ≤ 1 := by
  simp only [jaroSim]
  split_ifs with h1 h2 hm
  · norm_num
  · norm_num
  · norm_num
  · push_neg at h2
    obtain ⟨hp, ht⟩ := h2
    set bound := max p.length t.length / 2 - 1 with hb
    set m := (jaroMatchAux t bound p 0 []).1.length with hmdef
    set k := ((jaroMatchAux t bound p 0 []).1.zip
        (((List.range t.length).filter
          (fun j => decide (j ∈ (jaroMatchAux t bound p 0 []).2))).filterMap
          t.get?)).countP (fun pr => decide (pr.1 ≠ pr.2)) with hkdef
    have hmP : m ≤ p.length := jaroMatchAux_len t bound p 0 []
    have hused := jaroMatchAux_used t bound p 0 [] List.nodup_nil (by simp)
    have hmT : m ≤ t.length := by
      have hlen := length_le_of_nodup_lt hused.1 hused.2.1
      rw [hused.2.2] at hlen
      simpa using hlen
    have hkm : k ≤ m := by
      rw [hkdef, hmdef]
      exact le_trans (List.countP_le_length _) (by rw [List.length_zip]; exact min_le_left _ _)
    have hm1 : 1 ≤ m := Nat.one_le_iff_ne_zero.mpr hm
    have hP1 : 0 < p.length := List.length_pos.mpr hp
    have hT1 : 0 < t.length := List.length_pos.mpr ht
    have hmq : (1 : ℚ) ≤ (m : ℚ) := by exact_mod_cast hm1
    have hmPq : (m : ℚ) ≤ (p.length : ℚ) := by exact_mod_cast hmP
    have hmTq : (m : ℚ) ≤ (t.length : ℚ) := by exact_mod_cast hmT
    have hkq : (k : ℚ) ≤ (m : ℚ) := by exact_mod_cast hkm
    have hk0 : (0 : ℚ) ≤ (k : ℚ) := by positivity
    have hPq : (0 : ℚ) < (p.length : ℚ) := by exact_mod_cast hP1
    have hTq : (0 : ℚ) < (t.length : ℚ) := by exact_mod_cast hT1
    have hmq0 : (0 : ℚ) < (m : ℚ) := by linarith
    have t1a : (0 : ℚ) ≤ (m : ℚ) / (p.length : ℚ) := by positivity
    have t1b : (m : ℚ) / (p.length : ℚ) ≤ 1 := by
      rw [div_le_one hPq]; exact hmPq
    have t2a : (0 : ℚ) ≤ (m : ℚ) / (t.length : ℚ) := by positivity
    have t2b : (m : ℚ) / (t.length : ℚ) ≤ 1 := by
      rw [div_le_one hTq]; exact hmTq
    have t3a : (0 : ℚ) ≤ ((m : ℚ) - (k : ℚ) / 2) / (m : ℚ) := by
      apply div_nonneg _ (le_of_lt hmq0)
      linarith
    have t3b : ((m : ℚ) - (k : ℚ) / 2) / (m : ℚ) ≤ 1 := by
      rw [div_le_one hmq0]; linarith
    constructor
    · linarith
    · linarith

theorem jaroWinklerSim_nonneg_le_one (p t : Str) :
    0 ≤ jaroWinklerSim p t ∧ jaroWinklerSim p t ≤ 1 := by
  have hj := jaroSim_nonneg_le_one p t
  simp only [jaroWinklerSim]
  split_ifs with h
  · have hl4 : ((min (commonPrefixLen p t) 4 : ℕ) : ℚ) ≤ 4 := by
      exact_mod_cast Nat.min_le_right _ 4
    have hl0 : (0 : ℚ) ≤ ((min (commonPrefixLen p t) 4 : ℕ) : ℚ) := by positivity
    have hs1 : (0 : ℚ) ≤ 1 - jaroSim p t := by linarith [hj.2]
    have hmul1 : (0 : ℚ) ≤ ((min (commonPrefixLen p t) 4 : ℕ) : ℚ) * (1 / 10) * (1 - jaroSim p t) := by
      apply mul_nonneg (by positivity) hs1
    have hmul2 : ((min (commonPrefixLen p t) 4 : ℕ) : ℚ) * (1 / 10) * (1 - jaroSim p t)
        ≤ 4 * (1 / 10) * (1 - jaroSim p t) := by
      apply mul_le_mul_of_nonneg_right _ hs1
      linarith
    constructor
    · linarith [hj.1]
    · linarith [hj.2]
  · exact hj

theorem indelSim_nonneg (a b : Str) : 0 ≤ indelSim a b := by
  simp only [indelSim]
  split_ifs with h
  · norm_num
  · positivity

theorem fuzzTokenSet_nonneg (s1 s2 : Str) : 0 ≤ fuzzTokenSet s1 s2 := by
  simp only [fuzzTokenSet]
  exact le_trans (indelSim_nonneg _ _) (le_max_right _ _)

theorem first_name_score_range (a b : Str) :
    0 ≤ V4.calculate_first_name_score_optimized a b ∧
      V4.calculate_first_name_score_optimized a b ≤ 100 := by
  have hjw := jaroWinklerSim_nonneg_le_one (pyUpper (pyStrip a)) (pyUpper (pyStrip b))
  simp only [V4.calculate_first_name_score_optimized]
  split_ifs
  · norm_num
  · norm_num
  · norm_num
  · norm_num
  · constructor
    · refine le_min (by norm_num) ?_
      nlinarith [hjw.1]
    · exact min_le_left _ _
  · constructor
    · nlinarith [hjw.1]
    · nlinarith [hjw.2]

theorem token_set_score_range (pt aut : List Str) :
    0 ≤ V4.calculate_token_set_score_optimized pt aut ∧
      V4.calculate_token_set_score_optimized pt aut ≤ 100 := by
  simp only [V4.calculate_token_set_score_optimized]
  have hts := fuzzTokenSet_nonneg (joinSpace ((pt.filter pyIsAlpha).map pyUpper))
    (joinSpace ((aut.filter pyIsAlpha).map pyUpper))
  have hbonus : (0 : ℚ) ≤ (pt.map (fun ptok =>
      (aut.map (fun atok =>
        if is_initial atok = true then
          (if (pyUpper (extract_initial atok)).isPrefixOf (pyUpper ptok) = true then (10 : ℚ) else 0)
        else if is_initial ptok = true then
          (if (pyUpper (extract_initial ptok)).isPrefixOf (pyUpper atok) = true then (10 : ℚ) else 0)
        else 0)).sum)).sum := by
    apply List.sum_nonneg
    intro x hx
    rcases List.mem_map.mp hx with ⟨ptok, _, rfl⟩
    apply List.sum_nonneg
    intro y hy
    rcases List.mem_map.mp hy with ⟨atok, _, rfl⟩
    split_ifs <;> norm_num
  constructor
  · refine le_min (by norm_num) ?_
    linarith
  · exact min_le_left _ _

theorem weightedNameScore_range (pn pc an ac : Str) :
    0 ≤ V4.weightedNameScore pn pc an ac ∧ V4.weightedNameScore pn pc an ac ≤ 100 := by
  have hjw := jaroWinklerSim_nonneg_le_one (pyUpper pc) (pyUpper ac)
  have hns := first_name_score_range pn an
  simp only [V4.weightedNameScore]
  set cs := jaroWinklerSim (pyUpper pc) (pyUpper ac) * 100 with hcs
  set ns := V4.calculate_first_name_score_optimized pn an with hnsdef
  have hcs0 : 0 ≤ cs := by rw [hcs]; nlinarith [hjw.1]
  have hcs100 : cs ≤ 100 := by rw [hcs]; nlinarith [hjw.2]
  have hf0a : 0 ≤ cs * (7 / 10) + ns * (3 / 10) := by nlinarith [hns.1]
  have hf0b : cs * (7 / 10) + ns * (3 / 10) ≤ 100 := by nlinarith [hns.2]
  have hA0 : (0 : ℚ) ≤ min 100 (cs * (7 / 10) + ns * (3 / 10) + 5) :=
    le_min (by norm_num) (by linarith)
  have hA100 : min (100 : ℚ) (cs * (7 / 10) + ns * (3 / 10) + 5) ≤ 100 := min_le_left _ _
  split_ifs with h1 h2 h3
  · exact ⟨by linarith, by linarith⟩
  · exact ⟨by linarith, by linarith⟩
  · exact ⟨hA0, hA100⟩
  · exact ⟨hf0a, hf0b⟩

/-- C1: for every preprocessed professor record and author record — hence
for every pair of input name strings — the pairwise score returned by
`calculate_name_score_optimized`, through all of its branches (empty-input
zero, whole-string Jaro-Winkler fallback, token-set fallback, weighted
family/given combination), lies in the closed interval [0, 100]. -/
theorem c1_score_range (p : V4.ProfData) (a : V4.AuthorData) :
    0 ≤ V4.calculate_name_score_optimized p a ∧
      V4.calculate_name_score_optimized p a ≤ 100 := by
  simp only [V4.calculate_name_score_optimized]
  split_ifs with h1 h2
  · norm_num
  · have hjw := jaroWinklerSim_nonneg_le_one p.nome_completo_normalized
      a.display_name_normalized
    constructor
    · nlinarith [hjw.1]
    · nlinarith [hjw.2]
  · rcases hpa : V4.parse_author_name a.display_name_tokens with ⟨an, ac | al⟩
    · exact weightedNameScore_range _ _ an ac
    · exact token_set_score_range p.nome_completo_tokens a.display_name_tokens

theorem joinSpace_single (w : Str) : joinSpace [w] = w := rfl

theorem joinSpace_cons2 (w x : Str) (xs : List Str) :
    joinSpace (w :: x :: xs) = w ++ ' ' :: joinSpace (x :: xs) := rfl

theorem mem_joinSpace {c : Char} :
    ∀ (ws : List Str), c ∈ joinSpace ws → c = ' ' ∨ ∃ w ∈ ws, c ∈ w := by
  intro ws
  induction ws with
  | nil => intro h; simp [joinSpace] at h
  | cons w ws2 ih =>
    intro h
    cases ws2 with
    | nil =>
      rw [joinSpace_single] at h
      exact Or.inr ⟨w, List.mem_cons_self _ _, h⟩
    | cons x xs =>
      rw [joinSpace_cons2] at h
      rcases List.mem_append.mp h with h | h
      · exact Or.inr ⟨w, List.mem_cons_self _ _, h⟩
      · rcases List.mem_cons.mp h with rfl | h
        · exact Or.inl rfl
        · rcases ih h with h | ⟨v, hv, hcv⟩
          · exact Or.inl h
          · exact Or.inr ⟨v, List.mem_cons_of_mem _ hv, hcv⟩

theorem nfdTable_stable :
    nfdTable.all (fun e => e.2.all (fun d =>
      isMnChar d || (nfdTable.find? (fun e2 => e2.1 == d)).isNone)) = true := by decide

theorem stripChar_stable : ∀ (c d : Char), d ∈ stripChar c → stripChar d = [d] := by
  intro c d hd
  unfold stripChar nfdChar at hd ⊢
  cases hfind : nfdTable.find? (fun e => e.1 == c) with
  | none =>
    rw [hfind] at hd
    have hd2 := List.mem_filter.mp hd
    rcases List.mem_singleton.mp hd2.1 with rfl
    rw [hfind]
    simp only [List.filter, hd2.2]
  | some e =>
    rw [hfind] at hd
    have he : e ∈ nfdTable := List.mem_of_find?_eq_some hfind
    have hd2 := List.mem_filter.mp hd
    have hstable := nfdTable_stable
    rw [List.all_eq_true] at hstable
    have h1 := hstable e he
    rw [List.all_eq_true] at h1
    have h2 := h1 d hd2.1
    have hmn : isMnChar d = false := by
      have := hd2.2; simp only [Bool.not_eq_true'] at this; exact this
    rw [hmn, Bool.false_or, Option.isNone_iff_eq_none] at h2
    rw [h2]
    simp [hmn]

theorem map_fixed : ∀ (l : Str) (f : Char → Char), (∀ c ∈ l, f c = c) → l.map f = l := by
  intro l f
  induction l with
  | nil => intro _; rfl
  | cons c rest ih =>
    intro h
    rw [List.map_cons, h c (List.mem_cons_self _ _),
        ih (fun d hd => h d (List.mem_cons_of_mem _ hd))]

theorem flatMap_fixed : ∀ (l : Str) (f : Char → List Char),
    (∀ c ∈ l, f c = [c]) → l.flatMap f = l := by
  intro l f
  induction l with
  | nil => intro _; rfl
  | cons c rest ih =>
    intro h
    show f c ++ rest.flatMap f = c :: rest
    rw [h c (List.mem_cons_self _ _),
        ih (fun d hd => h d (List.mem_cons_of_mem _ hd))]
    rfl

theorem normalize_good (s : Str) :
    ∀ c ∈ V4.normalize_name s,
      stripChar c = [c] ∧ substDash c = c ∧ substApos c = c ∧ substComma c = c := by
  intro c hc
  by_cases hs : s = []
  · rw [hs] at hc; simp [V4.normalize_name] at hc
  · simp only [V4.normalize_name, if_neg hs] at hc
    rcases mem_joinSpace _ hc with rfl | ⟨w, hw, hcw⟩
    · exact ⟨by decide, by decide, by decide, by decide⟩
    · have hspec := pySplit_spec _ w hw
      have hc4 : c ∈ (((stripAccents s).map substDash).map substApos).map substComma :=
        (hspec.2 c hcw).2
      rcases List.mem_map.mp hc4 with ⟨c3, hc3, rfl⟩
      rcases List.mem_map.mp hc3 with ⟨c2, hc2, rfl⟩
      rcases List.mem_map.mp hc2 with ⟨d, hd, rfl⟩
      rcases List.mem_flatMap.mp hd with ⟨e, _, hde⟩
      by_cases h1 : d ∈ dashChars
      · simp only [dashChars, List.mem_cons, List.not_mem_nil, or_false] at h1
        rcases h1 with rfl | rfl | rfl | rfl
        · exact ⟨by decide, by decide, by decide, by decide⟩
        · exact ⟨by decide, by decide, by decide, by decide⟩
        · exact ⟨by decide, by decide, by decide, by decide⟩
        · exact ⟨by decide, by decide, by decide, by decide⟩
      · by_cases h2 : d ∈ aposChars
        · simp only [aposChars, List.mem_cons, List.not_mem_nil, or_false] at h2
          rcases h2 with rfl | rfl
          · exact ⟨by decide, by decide, by decide, by decide⟩
          · exact ⟨by decide, by decide, by decide, by decide⟩
        · by_cases h3 : d = ',' ∨ d = ';'
          · rcases h3 with rfl | rfl
            · exact ⟨by decide, by decide, by decide, by decide⟩
            · exact ⟨by decide, by decide, by decide, by decide⟩
          · rw [show substDash d = d from if_neg h1, show substApos d = d from if_neg h2,
                show substComma d = d from if_neg h3]
            exact ⟨stripChar_stable e d hde, if_neg h1, if_neg h2, if_neg h3⟩

theorem pySplit_word : ∀ (w : Str), w ≠ [] → (∀ c ∈ w, pySpace c = false) →
    pySplit w = [w] := by
  intro w
  induction w with
  | nil => intro h _; exact absurd rfl h
  | cons c rest ih =>
    intro _ hall
    have hc : pySpace c = false := hall c (List.mem_cons_self _ _)
    rw [pySplit_cons, if_neg (by simp [hc])]
    cases rest with
    | nil => rw [pySplit_nil, pySplitStep_wsnil]
    | cons d rest2 =>
      have hrest : pySplit (d :: rest2) = [d :: rest2] :=
        ih (by simp) (fun e he => hall e (List.mem_cons_of_mem _ he))
      rw [hrest, pySplitStep_cons,
          if_neg (by simp [hall d (List.mem_cons_of_mem _ (List.mem_cons_self _ _))])]

theorem pySplit_word_append :
    ∀ (w : Str) (s : Str), w ≠ [] → (∀ c ∈ w, pySpace c = false) →
      pySplit (w ++ ' ' :: s) = w :: pySplit s := by
  intro w
  induction w with
  | nil => intro s h _; exact absurd rfl h
  | cons c rest ih =>
    intro s _ hall
    have hc : pySpace c = false := hall c (List.mem_cons_self _ _)
    cases rest with
    | nil =>
      show pySplit (c :: ' ' :: s) = [c] :: pySplit s
      rw [pySplit_cons, if_neg (by simp [hc])]
      have hsp : pySplit (' ' :: s) = pySplit s := by
        rw [pySplit_cons, if_pos (by decide)]
      rw [hsp]
      cases hps : pySplit s with
      | nil => rw [pySplitStep_wsnil]
      | cons w1 ws2 => rw [pySplitStep_cons, if_pos (by decide)]
    | cons d rest2 =>
      have hd : pySpace d = false :=
        hall d (List.mem_cons_of_mem _ (List.mem_cons_self _ _))
      show pySplit ((c :: d :: rest2) ++ ' ' :: s) = (c :: d :: rest2) :: pySplit s
      rw [List.cons_append, pySplit_cons, if_neg (by simp [hc])]
      have hrec := ih s (by simp) (fun e he => hall e (List.mem_cons_of_mem _ he))
      rw [hrec, List.cons_append, pySplitStep_cons, if_neg (by simp [hd])]

theorem pySplit_joinSpace :
    ∀ (ws : List Str), (∀ w ∈ ws, w ≠ [] ∧ ∀ c ∈ w, pySpace c = false) →
      pySplit (joinSpace ws) = ws := by
  intro ws
  induction ws with
  | nil => intro _; rfl
  | cons w ws2 ih =>
    intro h
    have hw := h w (List.mem_cons_self _ _)
    cases ws2 with
    | nil => rw [joinSpace_single]; exact pySplit_word w hw.1 hw.2
    | cons x xs =>
      rw [joinSpace_cons2, pySplit_word_append w _ hw.1 hw.2,
          ih (fun v hv => h v (List.mem_cons_of_mem _ hv))]

/-- C8: the V4 name normalizer is idempotent:
`normalize_name (normalize_name s) = normalize_name s` for every string. -/
theorem c8_normalize_idempotent (s : Str) :
    V4.normalize_name (V4.normalize_name s) = V4.normalize_name s := by
  by_cases hs : s = []
  · rw [hs]; simp [V4.normalize_name]
  · set t := V4.normalize_name s with ht
    by_cases htn : t = []
    · rw [htn]; simp [V4.normalize_name]
    · have hgood := normalize_good s
      rw [← ht] at hgood
      have h1 : stripAccents t = t := flatMap_fixed t _ (fun c hc => (hgood c hc).1)
      have h2 : t.map substDash = t := map_fixed t _ (fun c hc => (hgood c hc).2.1)
      have h3 : t.map substApos = t := map_fixed t _ (fun c hc => (hgood c hc).2.2.1)
      have h4 : t.map substComma = t := map_fixed t _ (fun c hc => (hgood c hc).2.2.2)
      have hts : t = joinSpace (pySplit
          ((((stripAccents s).map substDash).map substApos).map substComma)) := by
        rw [ht]; simp only [V4.normalize_name, if_neg hs]
      show V4.normalize_name t = t
      simp only [V4.normalize_name, if_neg htn]
      rw [h1, h2, h3, h4]
      rw [hts, pySplit_joinSpace _ (fun w hw =>
        ⟨(pySplit_spec _ w hw).1, fun c hc => ((pySplit_spec _ w hw).2 c hc).1⟩)]

theorem c6_seven_tokens_witness :
    V4.parse_author_name authSeven.display_name_tokens = ([], Sum.inl []) ∧
    V4.calculate_name_score_optimized profGV authSeven =
      V4.weightedNameScore
        (V4.parse_professor_name profGV.nome_completo_tokens profGV.nome_completo_original).1
        (V4.parse_professor_name profGV.nome_completo_tokens profGV.nome_completo_original).2
        [] [] :=
  c6_seven_tokens profGV authSeven (by decide) (by decide) (by decide) (by decide)
